import Mathlib

/-!
Shallow embedding of `src/task/lock.rs`: a spin lock (`SpinLock<T>`) with a
scoped guard (`LockGuard`).  The Rust source keeps the protected value in an
`UnsafeCell<T>` field `handle` and the state of the lock in an `AtomicBool`
field `lock`.  Acquisition is `while self.lock.swap(true, SeqCst) {}`,
release (in `Drop for LockGuard`) is `self.inner.lock.swap(false, SeqCst)`,
and the guard dereferences to the cell behind `handle`.
-/

namespace GrpcSpin

/-- The atomic swap on an `AtomicBool`: stores `val` and returns the previous
value.  We model it as a pure function from the stored value to the pair
(previous value, new stored value). -/
def AtomicBool.swap (val : Bool) (cur : Bool) : Bool × Bool :=
  (cur, val)

/-- `SpinLock<T>` from the source: `handle: UnsafeCell<T>` holds the protected
value, `lock: AtomicBool` is the flag (`true` = locked). -/
structure SpinLock (α : Type) where
  handle : α
  lock : Bool
  deriving Repr, DecidableEq

/-- `SpinLock::new(t)`: wraps `t`, flag initialised to `false`. -/
def SpinLock.new (t : α) : SpinLock α :=
  { handle := t, lock := false }

/-- One iteration of the acquire loop `while self.lock.swap(true, SeqCst) {}`:
perform the swap, returning the previous value (the loop condition) and the
lock with the new flag. -/
def SpinLock.lockStep (s : SpinLock α) : Bool × SpinLock α :=
  let p := AtomicBool.swap true s.lock
  (p.1, { s with lock := p.2 })

/-- `SpinLock::lock` in a sequential world (no other thread can change the
flag between iterations): if the first swap returns `false` the loop breaks
and the guard is produced; if it returns `true` the flag can never change, so
the spin never terminates, modelled as `none`. -/
def SpinLock.lockSeq (s : SpinLock α) : Option (SpinLock α) :=
  let r := s.lockStep
  if r.1 then none else some r.2

/-- The acquire loop run against a schedule of observations: `obs` lists, for
each successive swap this thread performs, the flag value the swap reads
(other threads may store into the flag between this thread's swaps).  Returns
the index of the iteration on which the loop breaks, `none` when every listed
observation keeps it spinning. -/
def lockLoop : List Bool → Option Nat
  | [] => none
  | b :: rest =>
    let p := AtomicBool.swap true b
    if p.1 then Option.map (· + 1) (lockLoop rest) else some 0

/-- `Drop for LockGuard`: `self.inner.lock.swap(false, SeqCst)`, the returned
previous value is discarded. -/
def LockGuard.drop (s : SpinLock α) : SpinLock α :=
  let p := AtomicBool.swap false s.lock
  { s with lock := p.2 }

/-- `Deref for LockGuard`: `&*self.inner.handle.get()`, a reference straight
into the lock's cell.  A guard holds only a reference to its lock, so in the
state-passing model a live guard is represented by the lock state it borrows,
and dereferencing reads the lock's `handle` cell. -/
def LockGuard.deref (s : SpinLock α) : α :=
  s.handle

/-- `DerefMut for LockGuard`: `&mut *self.inner.handle.get()`.  Writing `a`
through that mutable reference stores `a` into the lock's `handle` cell. -/
def LockGuard.derefMutSet (s : SpinLock α) (a : α) : SpinLock α :=
  { s with handle := a }

/-- Modelled from the spec: Rust's scope semantics ("when the guard's scope
ends for any reason, ... This must fire even if control leaves the scope via
an exception/unwind/error-propagation path") are not code in `lock.rs`; the
`Drop` body is.  A critical section run under a guard: the body sees the
protected value, leaves a (possibly updated) value in the cell, and either
returns normally or unwinds with an error; on either exit path the scope end
runs `LockGuard.drop` once. -/
def runScoped (s : SpinLock α) (body : α → α × Except ε β) :
    SpinLock α × Except ε β :=
  match body s.handle with
  | (a, Except.ok b) => (LockGuard.drop { s with handle := a }, Except.ok b)
  | (a, Except.error e) =>
      (LockGuard.drop { s with handle := a }, Except.error e)

/-- A whole-system state for the concurrent model: the shared lock together
with the number of currently live `LockGuard`s for it. -/
structure LockSys (α : Type) where
  lk : SpinLock α
  guards : Nat
  deriving Repr, DecidableEq

/-- The system right after `SpinLock::new(t)`: no guard exists yet. -/
def LockSys.init (t : α) : LockSys α :=
  { lk := SpinLock.new t, guards := 0 }

/-- Labels for the atomic events threads can perform on the shared lock. -/
inductive Event (α : Type) where
  | acquire : Event α
  | spin : Event α
  | release : Event α
  | write : α → Event α
  deriving Repr, DecidableEq

/-- Interleaving semantics: each step is one atomic action of some thread.
`acquire` is a swap in `SpinLock::lock` that read `false` (the loop breaks, a
guard is created); `spin` is a swap that read `true` (the loop retries, the
true→true store changes nothing); `release` is a live guard being dropped
(`Drop for LockGuard` swaps `false` in); `write` is a store through a live
guard's `deref_mut` reference. -/
inductive Step : LockSys α → Event α → LockSys α → Prop where
  | acquire (s : LockSys α) (h : s.lk.lock = false) :
      Step s Event.acquire { lk := (s.lk.lockStep).2, guards := s.guards + 1 }
  | spin (s : LockSys α) (h : s.lk.lock = true) :
      Step s Event.spin { s with lk := (s.lk.lockStep).2 }
  | release (s : LockSys α) (h : 0 < s.guards) :
      Step s Event.release { lk := LockGuard.drop s.lk, guards := s.guards - 1 }
  | write (s : LockSys α) (a : α) (h : 0 < s.guards) :
      Step s (Event.write a) { s with lk := LockGuard.derefMutSet s.lk a }

/-- States reachable from a freshly constructed lock by any interleaving. -/
def Reachable (t : α) (s : LockSys α) : Prop :=
  Relation.ReflTransGen (fun x y => ∃ e, Step x e y) (LockSys.init t) s

/-- The mutual-exclusion invariant: at most one live guard, and the flag is
set exactly when a guard is live. -/
def Inv (s : LockSys α) : Prop :=
  s.guards ≤ 1 ∧ (s.lk.lock = true ↔ s.guards = 1)

/-- One sequential acquire-then-release pair: `lock()` followed by dropping
the returned guard. -/
def cycle (s : SpinLock α) : Option (SpinLock α) :=
  Option.map LockGuard.drop (SpinLock.lockSeq s)

/-- `n` sequential acquire-then-release pairs, each one starting from the
state the previous one left behind. -/
def cycleN : Nat → SpinLock α → Option (SpinLock α)
  | 0, s => some s
  | n + 1, s => Option.bind (cycle s) (cycleN n)

/-- A fragment of Rust's type grammar, enough to state the auto-trait
reasoning around `SpinLock<T>`: a base type carrying its own Send/Sync
markers, `UnsafeCell<T>`, `AtomicBool`, and `SpinLock<T>`. -/
inductive RustTy : Type where
  | base : Bool → Bool → RustTy
  | unsafeCell : RustTy → RustTy
  | atomicBool : RustTy
  | spinLock : RustTy → RustTy
  deriving Repr, DecidableEq

/-- Whether a type is `Send`.  `UnsafeCell<T>` and `AtomicBool` follow the
standard library; for `SpinLock<T>` the only rule is the source's
`unsafe impl<T: Send> Send for SpinLock<T>` (by coherence this impl replaces
the compiler-derived one, so it is the sole source of Send-ness). -/
def RustTy.isSend : RustTy → Bool
  | .base s _ => s
  | .unsafeCell t => t.isSend
  | .atomicBool => true
  | .spinLock t => t.isSend

/-- Whether a type is `Sync`.  `UnsafeCell<T>` is never `Sync`; for
`SpinLock<T>` the only rule is the source's
`unsafe impl<T: Send> Sync for SpinLock<T>`. -/
def RustTy.isSync : RustTy → Bool
  | .base _ y => y
  | .unsafeCell _ => false
  | .atomicBool => true
  | .spinLock t => t.isSend

theorem inv_init (t : α) : Inv (LockSys.init t) := by
  constructor
  · exact Nat.zero_le 1
  · simp [LockSys.init, SpinLock.new]

theorem inv_step {s s2 : LockSys α} {e : Event α}
    (hs : Inv s) (h : Step s e s2) : Inv s2 := by
  obtain ⟨hle, hiff⟩ := hs
  cases h with
  | acquire h =>
      have hg : s.guards = 0 := by
        rcases Nat.lt_or_ge s.guards 1 with h1 | h1
        · omega
        · have h2 : s.guards = 1 := by omega
          have h3 := hiff.mpr h2
          simp [h] at h3
      constructor
      · simp [SpinLock.lockStep, AtomicBool.swap, hg]
      · simp [SpinLock.lockStep, AtomicBool.swap, hg]
  | spin h =>
      constructor
      · exact hle
      · simpa [SpinLock.lockStep, AtomicBool.swap, h] using hiff
  | release h =>
      have hg : s.guards = 1 := by omega
      constructor
      · simp [hg]
      · simp [LockGuard.drop, AtomicBool.swap, hg]
  | write a h =>
      constructor
      · exact hle
      · simpa [LockGuard.derefMutSet] using hiff

theorem inv_reachable {t : α} {s : LockSys α} (h : Reachable t s) : Inv s := by
  induction h with
  | refl => exact inv_init t
  | tail _ hstep ih =>
      obtain ⟨e, he⟩ := hstep
      exact inv_step ih he

theorem lockLoop_spec (obs : List Bool) (n : Nat) :
    lockLoop obs = some n ↔
      (obs.getD n true = false ∧ ∀ j, j < n → obs.getD j true = true) := by
  induction obs generalizing n with
  | nil => simp [lockLoop]
  | cons b rest ih =>
      cases b with
      | false =>
          cases n with
          | zero => simp [lockLoop, AtomicBool.swap]
          | succ m =>
              simp only [lockLoop, AtomicBool.swap]
              constructor
              · intro hL
                simp at hL
              · rintro ⟨h1, h2⟩
                have h0 := h2 0 (Nat.succ_pos m)
                simp at h0
      | true =>
          cases n with
          | zero =>
              simp only [lockLoop, AtomicBool.swap]
              constructor
              · intro hL
                simp [Option.map_eq_some'] at hL
              · rintro ⟨h1, h2⟩
                simp at h1
          | succ m =>
              constructor
              · intro hL
                simp only [lockLoop, AtomicBool.swap, if_pos,
                  Option.map_eq_some'] at hL
                obtain ⟨a, ha, hae⟩ := hL
                have ham : a = m := by omega
                rw [ham] at ha
                obtain ⟨h1, h2⟩ := (ih m).mp ha
                refine ⟨by simpa using h1, ?_⟩
                intro j hj
                cases j with
                | zero => simp
                | succ k => simpa using h2 k (by omega)
              · rintro ⟨h1, h2⟩
                have hrest : lockLoop rest = some m := by
                  refine (ih m).mpr ⟨by simpa using h1, ?_⟩
                  intro j hj
                  simpa using h2 (j + 1) (by omega)
                simp [lockLoop, AtomicBool.swap, hrest]

theorem lock_false_eta (s : SpinLock α) (h : s.lock = false) :
    ({ s with lock := false } : SpinLock α) = s := by
  obtain ⟨hd, lk⟩ := s
  simp only at h
  subst h
  rfl

theorem cycle_id (s : SpinLock α) (h : s.lock = false) : cycle s = some s := by
  simp [cycle, SpinLock.lockSeq, SpinLock.lockStep, AtomicBool.swap, h,
    LockGuard.drop]
  exact lock_false_eta s h

theorem cycleN_id (n : Nat) (s : SpinLock α) (h : s.lock = false) :
    cycleN n s = some s := by
  induction n with
  | zero => rfl
  | succ m ih => simp [cycleN, cycle_id s h, ih]

/-- C1: in every reachable state of any execution, at most one live LockGuard
exists for the lock, and the flag is true iff a guard is currently live; in
particular no two guards for the same lock are simultaneously live. -/
theorem spinlock_mutual_exclusion (t : α) (s : LockSys α) (h : Reachable t s) :
    s.guards ≤ 1 ∧ (s.lk.lock = true ↔ s.guards = 1) :=
  inv_reachable h

theorem spinlock_mutual_exclusion_witness :
    (LockSys.init (2 : Nat)).guards ≤ 1 ∧
      ((LockSys.init (2 : Nat)).lk.lock = true ↔
        (LockSys.init (2 : Nat)).guards = 1) :=
  spinlock_mutual_exclusion 2 (LockSys.init 2) Relation.ReflTransGen.refl

/-- C2: when a guard's scope ends — normal return or unwind/error
propagation — the Drop release runs and clears the flag to false, the lock
can immediately be acquired again, and the body's outcome is propagated
unchanged. -/
theorem lockguard_release_on_scope_exit (s : SpinLock α)
    (body : α → α × Except ε β) :
    ((runScoped s body).1).lock = false ∧
      (∃ s2, SpinLock.lockSeq ((runScoped s body).1) = some s2) ∧
      (runScoped s body).2 = (body s.handle).2 := by
  rcases hb : body s.handle with ⟨a, r⟩
  cases r with
  | ok b =>
      refine ⟨?_, ?_, ?_⟩ <;>
        simp [runScoped, hb, LockGuard.drop, AtomicBool.swap, SpinLock.lockSeq,
          SpinLock.lockStep]
  | error e =>
      refine ⟨?_, ?_, ?_⟩ <;>
        simp [runScoped, hb, LockGuard.drop, AtomicBool.swap, SpinLock.lockSeq,
          SpinLock.lockStep]

/-- C3: the acquire loop's swap stores true and returns the previous value
(so a swap that reads true is a no-op on the flag), and against any schedule
of observed flag values the loop breaks exactly at the first observation of
false — each earlier iteration read true and retried. -/
theorem lock_loop_breaks_on_first_false :
    (∀ b : Bool, AtomicBool.swap true b = (b, true)) ∧
      ∀ (obs : List Bool) (n : Nat),
        lockLoop obs = some n ↔
          (obs.getD n true = false ∧ ∀ j, j < n → obs.getD j true = true) :=
  ⟨fun _ => rfl, lockLoop_spec⟩

theorem lock_loop_breaks_on_first_false_witness :
    lockLoop [true, true, false] = some 2 :=
  (lock_loop_breaks_on_first_false.2 [true, true, false] 2).mpr (by decide)

/-- C4: each lock follows the two-state machine over the flag: construction
starts it unlocked with no guard; a step flipping the flag false→true can
only be an acquire (a swap that observed previous value false); a step
flipping it true→false can only be a guard release; and every state has an
enabled step, so there is no terminal state and the lock is reusable
indefinitely. -/
theorem spinlock_state_machine :
    (∀ t : α, (LockSys.init t).lk.lock = false ∧ (LockSys.init t).guards = 0) ∧
      (∀ (s : LockSys α) (e : Event α) (s2 : LockSys α), Step s e s2 →
        (s.lk.lock = false → s2.lk.lock = true → e = Event.acquire) ∧
        (s.lk.lock = true → s2.lk.lock = false → e = Event.release)) ∧
      (∀ s : LockSys α, ∃ e s2, Step s e s2) := by
  refine ⟨fun t => ⟨rfl, rfl⟩, ?_, ?_⟩
  · intro s e s2 hstep
    cases hstep with
    | acquire h =>
        exact ⟨fun _ _ => rfl, fun h1 _ => absurd h1 (by simp [h])⟩
    | spin h =>
        constructor
        · intro h1 _
          rw [h] at h1
          cases h1
        · intro _ h2
          simp [SpinLock.lockStep, AtomicBool.swap] at h2
    | release h =>
        constructor
        · intro _ h2
          simp [LockGuard.drop, AtomicBool.swap] at h2
        · exact fun _ _ => rfl
    | write a h =>
        constructor
        · intro h1 h2
          simp [LockGuard.derefMutSet, h1] at h2
        · intro h1 h2
          simp [LockGuard.derefMutSet, h1] at h2
  · intro s
    cases hb : s.lk.lock with
    | false => exact ⟨_, _, Step.acquire s hb⟩
    | true => exact ⟨_, _, Step.spin s hb⟩

theorem spinlock_state_machine_witness :
    (LockSys.init (2 : Nat)).lk.lock = false ∧
      (∃ e s2, Step (LockSys.init (2 : Nat)) e s2) ∧
      @Event.acquire Nat = @Event.acquire Nat :=
  ⟨((@spinlock_state_machine Nat).1 2).1,
   (@spinlock_state_machine Nat).2.2 (LockSys.init 2),
   ((@spinlock_state_machine Nat).2.1 (LockSys.init 2) Event.acquire _
       (Step.acquire (LockSys.init 2) rfl)).1 rfl rfl⟩

/-- C5: lock() cannot fail from an unlocked state: sequentially it returns
after the first swap iteration with a guard over the lock, its only effect
on the lock is the flag going false→true (the handle is untouched), and any
schedule whose first observation is false makes the loop break at iteration
zero. -/
theorem lock_succeeds_when_unlocked (s : SpinLock α) (h : s.lock = false) :
    SpinLock.lockSeq s = some { s with lock := true } ∧
      ({ s with lock := true } : SpinLock α).handle = s.handle ∧
      ∀ rest : List Bool, lockLoop (false :: rest) = some 0 := by
  refine ⟨?_, rfl, fun rest => rfl⟩
  simp [SpinLock.lockSeq, SpinLock.lockStep, AtomicBool.swap, h]

theorem lock_succeeds_when_unlocked_witness :
    SpinLock.lockSeq (SpinLock.new (2 : Nat)) =
        some { SpinLock.new (2 : Nat) with lock := true } ∧
      ({ SpinLock.new (2 : Nat) with lock := true } : SpinLock Nat).handle =
        (SpinLock.new (2 : Nat)).handle ∧
      ∀ rest : List Bool, lockLoop (false :: rest) = some 0 :=
  lock_succeeds_when_unlocked (SpinLock.new 2) rfl

/-- C6: starting unlocked, any number n of sequential acquire-then-release
pairs succeeds at every step and returns the lock to its starting state, and
every release leaves the flag false — the lock is reusable arbitrarily
often. -/
theorem spinlock_reusable (n : Nat) (s : SpinLock α) (h : s.lock = false) :
    cycleN n s = some s ∧ ∀ s2 : SpinLock α, (LockGuard.drop s2).lock = false :=
  ⟨cycleN_id n s h, fun _ => rfl⟩

theorem spinlock_reusable_witness :
    cycleN 3 (SpinLock.new (2 : Nat)) = some (SpinLock.new 2) ∧
      ∀ s2 : SpinLock Nat, (LockGuard.drop s2).lock = false :=
  spinlock_reusable 3 (SpinLock.new 2) rfl

/-- C7: dereferencing a guard reads the lock's cell and mutable
dereferencing writes that same cell — the guard keeps no copy: a write
through the guard is what subsequent reads through the guard and the lock
itself observe; and the value wrapped by new(t) is what the first guard
dereferences to. -/
theorem guard_deref_accesses_lock_cell :
    (∀ s : SpinLock α, LockGuard.deref s = s.handle) ∧
      (∀ (s : SpinLock α) (a : α), (LockGuard.derefMutSet s a).handle = a) ∧
      (∀ (s : SpinLock α) (a : α),
        LockGuard.deref (LockGuard.derefMutSet s a) = a) ∧
      (∀ t : α, ∃ s2, SpinLock.lockSeq (SpinLock.new t) = some s2 ∧
        LockGuard.deref s2 = t) := by
  refine ⟨fun s => rfl, fun s a => rfl, fun s a => rfl, fun t => ?_⟩
  exact ⟨{ handle := t, lock := true }, by
    simp [SpinLock.lockSeq, SpinLock.lockStep, AtomicBool.swap, SpinLock.new],
    rfl⟩

/-- C8: SpinLock<T> is Sync and Send exactly when T is Send, and this is a
genuine conversion: a type that is Send but not Sync still yields a Sync
SpinLock. -/
theorem spinlock_sync_send_iff_send :
    (∀ t : RustTy,
      ((RustTy.spinLock t).isSync = true ∧ (RustTy.spinLock t).isSend = true)
        ↔ t.isSend = true) ∧
      (∃ t : RustTy, t.isSend = true ∧ t.isSync = false ∧
        (RustTy.spinLock t).isSync = true) := by
  constructor
  · intro t
    simp [RustTy.isSync, RustTy.isSend]
  · exact ⟨RustTy.base true false, rfl, rfl, rfl⟩

/-- C9: acquisition and release only touch the atomic flag: a swap iteration,
a sequential lock() and a guard drop all leave the handle cell unchanged, and
in the interleaving semantics any step that changes the handle is a write
through a live guard's mutable dereference. -/
theorem acquire_release_frame :
    (∀ s : SpinLock α, ((SpinLock.lockStep s).2).handle = s.handle) ∧
      (∀ s s2 : SpinLock α, SpinLock.lockSeq s = some s2 →
        s2.handle = s.handle) ∧
      (∀ s : SpinLock α, (LockGuard.drop s).handle = s.handle) ∧
      (∀ (st : LockSys α) (e : Event α) (st2 : LockSys α), Step st e st2 →
        st2.lk.handle ≠ st.lk.handle → ∃ a, e = Event.write a) := by
  refine ⟨fun s => rfl, ?_, fun s => rfl, ?_⟩
  · intro s s2 hs
    simp only [SpinLock.lockSeq, SpinLock.lockStep, AtomicBool.swap] at hs
    rcases hb : s.lock with _ | _ <;> rw [hb] at hs <;> simp at hs
    · rw [← hs]
  · intro st e st2 hstep hne
    cases hstep with
    | acquire h => exact absurd rfl hne
    | spin h => exact absurd rfl hne
    | release h => exact absurd rfl hne
    | write a h => exact ⟨a, rfl⟩

theorem acquire_release_frame_witness :
    ({ handle := 2, lock := true } : SpinLock Nat).handle =
        (SpinLock.new (2 : Nat)).handle ∧
      (∃ a, @Event.write Nat 7 = Event.write a) :=
  ⟨(@acquire_release_frame Nat).2.1 (SpinLock.new 2)
      { handle := 2, lock := true } rfl,
   (@acquire_release_frame Nat).2.2.2 { lk := SpinLock.new 2, guards := 1 }
      (Event.write 7) _
      (Step.write { lk := SpinLock.new 2, guards := 1 } 7 (by decide))
      (by decide)⟩

/-- C10: release is total and unconditional: for every prior flag value the
drop swaps false in and discards the previous value, leaving the flag false
and everything else unchanged — no check that the lock was held, no failure
path. -/
theorem guard_drop_unconditional :
    (∀ b : Bool, AtomicBool.swap false b = (b, false)) ∧
      ∀ s : SpinLock α, LockGuard.drop s = { s with lock := false } :=
  ⟨fun _ => rfl, fun _ => rfl⟩

end GrpcSpin
